import Mathlib

/-!
# RainAlert: the rain-onset scan of `weather`

A shallow embedding of `src/rainalert/main.go`: the part of `weather` that runs on the decoded
forecast record (lines 250-268) and `subtractTime` (lines 271-274), together with the pieces of
the Go standard library they call (`time.Unix`, `Time.Sub`, `Duration.Minutes`, `strings.Title`,
and the `%v` formatting of a float64 done by `fmt.Sprint`).

Conventions.
* A finite float64 is the rational number it denotes.  Comparisons of float64 values are
  comparisons of these rationals; every arithmetic operation is the exact operation followed by
  `roundF64`, rounding to the nearest float64 with ties to even.  Zero carries no sign: the
  float64 `-0` that `subtractTime` returns for two equal times is the rational `0`; `weather`
  never formats it, a lead time being formatted only for a timestamp other than the anchor's.
* An int64 is an integer between `-2 ^ 63` and `2 ^ 63 - 1`; an int64 operation is the operation
  on integers followed by `wrap64`.  The methods of `time.Time` follow the source of package
  `time`, the seconds that `time.Unix` stores wrapping like any int64 sum.
* A run-time panic is an `Except.error`.
* The HTTP request, the JSON decoding and the `fmt.Println` logging are outside the embedding:
  `weather` starts from the decoded record.
-/

namespace RainAlert

/-! ## float64 -/

/-- Nearest natural number to `n / d`, a tie going to the even neighbour. -/
def roundHalfEven (n d : Nat) : Nat :=
  let q := n / d
  let r := n % d
  if 2 * r < d then q else if d < 2 * r then q + 1 else if q % 2 = 0 then q else q + 1

/-- Test `2 ^ e ≤ n / d`, for a binary exponent of either sign. -/
def pow2Le (e : Int) (n d : Nat) : Bool :=
  if 0 ≤ e then decide (d * 2 ^ e.toNat ≤ n) else decide (d ≤ n * 2 ^ (-e).toNat)

/-- Number of halvings that bring `n` below `2`, at most `fuel` of them. -/
def log2Fuel : Nat → Nat → Nat
  | 0, _ => 0
  | fuel + 1, n => if n < 2 then 0 else log2Fuel fuel (n / 2) + 1

/-- The `k` with `2 ^ k ≤ n < 2 ^ (k + 1)`, for a positive `n`. -/
def floorLog2 (n : Nat) : Nat := log2Fuel n n

/-- Binary exponent of the positive rational `n / d`: the `e` with `2 ^ e ≤ n / d < 2 ^ (e + 1)`. -/
def binExp (n d : Nat) : Int :=
  let e : Int := (floorLog2 n : Int) - (floorLog2 d : Int)
  if pow2Le e n d then e else e - 1

/-- The rational `m * 2 ^ e`. -/
def scale2 (m : Nat) (e : Int) : ℚ :=
  if 0 ≤ e then ((m * 2 ^ e.toNat : Nat) : ℚ) else mkRat (m : Int) (2 ^ (-e).toNat)

/-- The multiple of `2 ^ e` nearest to `n / d`, counted in units of `2 ^ e`, ties to even. -/
def significand (n d : Nat) (e : Int) : Nat :=
  if 0 ≤ e then roundHalfEven n (d * 2 ^ e.toNat) else roundHalfEven (n * 2 ^ (-e).toNat) d

/-- Rounding of a rational to float64: the nearest number with a 53-bit significand, ties to
even.  The exponent range of float64 is not modelled (the non-zero values rounded by `Minutes`
lie between `2 ^ (-36)` and `2 ^ 36` in magnitude, far from underflow and overflow). -/
def roundF64 (q : ℚ) : ℚ :=
  if q = 0 then 0 else
    let n := q.num.natAbs
    let e := binExp n q.den - 52
    let v := scale2 (significand n q.den e) e
    if q < 0 then -v else v

/-! ## Formatting of a float64 by `fmt.Sprint` (verb `%v`, that is `%g` with the shortest
representation that reads back as the same float64) -/

/-- The rational `m * 10 ^ j`. -/
def scale10 (m : Nat) (j : Int) : ℚ :=
  if 0 ≤ j then ((m * 10 ^ j.toNat : Nat) : ℚ) else mkRat (m : Int) (10 ^ (-j).toNat)

/-- Number of whole multiples of `10 ^ j` in a non-negative rational. -/
def unitsAt (x : ℚ) (j : Int) : Nat :=
  if 0 ≤ j then x.num.natAbs / (x.den * 10 ^ j.toNat)
  else (x.num.natAbs * 10 ^ (-j).toNat) / x.den

/-- Decimal place of the leading digit of a positive rational. -/
def topPlace (x : ℚ) : Int :=
  let est : Int := (binExp x.num.natAbs x.den * 30103) / 100000
  if 1 ≤ unitsAt x (est + 1) then est + 1 else if 1 ≤ unitsAt x est then est else est - 1

/-- The digit walk of `strconv`'s `roundShortest`: going down the decimal places from `j`, stop at
the first place where `x` cut down, or cut and bumped up, still lies between `lower` and `upper`
(bounds included when `incl`); when both do, take the nearer one, a tie going to the even digit.
The result is the pair `(m, j)` standing for `m * 10 ^ j`. -/
def shortestLoop (x lower upper : ℚ) (incl : Bool) : Nat → Int → Nat × Int
  | 0, j => (unitsAt x j, j)
  | fuel + 1, j =>
    let t := unitsAt x j
    let dn := scale10 t j
    let up := scale10 (t + 1) j
    let okdown := decide (lower < dn) || (incl && decide (dn = lower))
    let okup := decide (up < upper) || (incl && decide (up = upper))
    if okdown && okup then
      (if x - dn < up - x then t else if up - x < x - dn then t + 1
        else if t % 2 = 0 then t else t + 1, j)
    else if okdown then (t, j)
    else if okup then (t + 1, j)
    else shortestLoop x lower upper incl fuel (j - 1)

/-- Drop the trailing zero digits of `m`, raising the decimal place accordingly. -/
def trimZeros : Nat → Nat → Int → Nat × Int
  | 0, m, j => (m, j)
  | fuel + 1, m, j => if m ≠ 0 ∧ m % 10 = 0 then trimZeros fuel (m / 10) (j + 1) else (m, j)

/-- Shortest decimal digits of a positive float64 `x` that read back as `x`: the digits and the
position `dp` of the decimal point, the value being `0.d₁d₂… × 10 ^ dp`.  Any decimal between
`lower` and `upper`, the midpoints to the neighbouring float64 values, rounds to `x`; the bounds
themselves do when the significand of `x` is even.  Seventeen digits always suffice, so the walk
ends well within its twenty steps. -/
def shortestDecimal (x : ℚ) : List Char × Int :=
  let e := max (binExp x.num.natAbs x.den) (-1022)
  let half := scale2 1 (e - 53)
  let mantEven : Bool := decide (unitsAt (x / scale2 1 (e - 52)) 0 % 2 = 0)
  let atPow2 : Bool := decide (x = scale2 1 e ∧ -1022 < e)
  let upper := x + half
  let lower := if atPow2 then x - half / 2 else x - half
  let r := shortestLoop x lower upper mantEven 20 (topPlace upper)
  let r := trimZeros 20 r.1 r.2
  let ds := Nat.toDigits 10 r.1
  (ds, r.2 + ds.length)

/-- Exponent digits of the `%e` form: at least two. -/
def expDigits (e : Nat) : List Char :=
  if e < 10 then '0' :: Nat.toDigits 10 e else Nat.toDigits 10 e

/-- The form `d.ddde±dd` of `strconv` (`%e`), without the sign of the number. -/
def fmtE (ds : List Char) (dp : Int) : List Char :=
  let exp := dp - 1
  let frac := ds.drop 1
  ds.take 1 ++ (if frac.isEmpty then [] else '.' :: frac) ++
    ['e', if exp < 0 then '-' else '+'] ++ expDigits exp.natAbs

/-- The form `ddd.ddd` of `strconv` (`%f`), without the sign of the number. -/
def fmtF (ds : List Char) (dp : Int) : List Char :=
  let ip := if 0 < dp then ds.take dp.toNat ++ List.replicate (dp.toNat - ds.length) '0' else ['0']
  let prec := ((ds.length : Int) - dp).toNat
  let fp := if 0 < dp then ds.drop dp.toNat else List.replicate (-dp).toNat '0' ++ ds
  ip ++ (if prec = 0 then [] else '.' :: fp)

/-- What `fmt.Sprint` prints for a float64 (`strconv.FormatFloat(x, 'g', -1, 64)`): the shortest
digits, in the `%e` form when the decimal exponent `dp - 1` is below `-4` or at least `6`
(`1e+06`, `1e-05`), in the `%f` form otherwise (`123456`, `0.0001`). -/
def formatFloat (x : ℚ) : String :=
  if x = 0 then "0" else
    let r := shortestDecimal |x|
    let exp := r.2 - 1
    let body := if exp < -4 ∨ 6 ≤ exp then fmtE r.1 r.2 else fmtF r.1 r.2
    String.mk (if x < 0 then '-' :: body else body)

/-! ## Package `time` -/

/-- The value an int64 holds after an arithmetic operation whose exact result is `x`. -/
def wrap64 (x : Int) : Int :=
  (x + 9223372036854775808) % 18446744073709551616 - 9223372036854775808

/-- The value an int32 holds after an operation or conversion whose exact result is `x`. -/
def wrap32 (x : Int) : Int := (x + 2147483648) % 4294967296 - 2147483648

/-- Go's `int64`: the integers from `-2 ^ 63` to `2 ^ 63 - 1`. -/
abbrev int64 : Type := { x : Int // -9223372036854775808 ≤ x ∧ x ≤ 9223372036854775807 }

/-- A numeral read as an int64. -/
instance (n : Nat) : OfNat int64 n := ⟨⟨wrap64 n, by unfold wrap64; omega⟩⟩

/-- Go's `time.Second`.  A `time.Duration` is a count of nanoseconds, an int64. -/
def Second : Int := 1000000000

/-- Go's `time.Minute`. -/
def Minute : Int := 60 * Second

/-- The least `time.Duration`. -/
def minDuration : Int := -(2 ^ 63)

/-- The greatest `time.Duration`. -/
def maxDuration : Int := 2 ^ 63 - 1

/-- Seconds from January 1 of year 1 to the Unix epoch (`unixToInternal`). -/
def unixToInternal : Int := 62135596800

/-- A `time.Time`: `wall` (uint64) holds the nanoseconds in its low 30 bits, `ext` (int64) the
seconds since January 1 of year 1.  All the values here come from `time.Unix`: their location is
`time.Local` and the `hasMonotonic` bit of `wall` is clear, so Go's `==` compares the two fields
and the branches of the methods below for a monotonic clock reading are never taken; they are
left out. -/
structure Time where
  wall : Nat
  ext : Int
  deriving DecidableEq, Repr

/-- The `nsec` method: `int32(t.wall & nsecMask)`. -/
def Time.nsec (t : Time) : Int := ((t.wall % 1073741824 : Nat) : Int)

/-- The `sec` method, for a time without monotonic reading: `t.ext`. -/
def Time.sec (t : Time) : Int := t.ext

/-- The `unixTime` of package `time`: `Time{uint64(nsec), sec + unixToInternal, Local}`, the sum
being an int64 sum. -/
def unixTime (sec nsec : Int) : Time :=
  ⟨(nsec % 18446744073709551616).toNat, wrap64 (sec + unixToInternal)⟩

/-- Go's `time.Unix(sec, nsec)`: a `nsec` outside `[0, 999999999]` is carried into `sec`; the
arithmetic is that of int64, `nsec` being cut to an int32 at the end. -/
def Unix (sec nsec : Int) : Time :=
  if nsec < 0 ∨ 1000000000 ≤ nsec then
    let n := Int.tdiv nsec 1000000000
    let sec := wrap64 (sec + n)
    let nsec := wrap64 (nsec - wrap64 (n * 1000000000))
    if nsec < 0 then unixTime (wrap64 (sec - 1)) (wrap32 (wrap64 (nsec + 1000000000)))
    else unixTime sec (wrap32 nsec)
  else unixTime sec (wrap32 nsec)

/-- The `addSec` method, for a time without monotonic reading: the sum of `t.ext` and `d`, or
the greatest (least) value when the int64 sum overflows. -/
def Time.addSec (t : Time) (d : Int) : Time :=
  let sum := wrap64 (t.ext + d)
  if decide (t.ext < sum) = decide (0 < d) then { t with ext := sum }
  else if 0 < d then { t with ext := 9223372036854775807 }
  else { t with ext := -9223372036854775807 }

/-- Go's `t.Add(d)`:
`dsec := int64(d / 1e9); nsec := t.nsec() + int32(d%1e9)`, a carry into `dsec` when `nsec` leaves
`[0, 1e9)`, `t.wall = t.wall&^nsecMask | uint64(nsec)`, then `t.addSec(dsec)`.  After the carry
`nsec` lies in `[0, 2 ^ 30)`, so the bitwise or puts it in the 30 low bits that were cleared. -/
def Time.Add (t : Time) (d : Int) : Time :=
  let dsec := Int.tdiv d 1000000000
  let nsec := wrap32 (t.nsec + wrap32 (Int.tmod d 1000000000))
  if 1000000000 ≤ nsec then
    Time.addSec
      { t with wall := t.wall - t.wall % 1073741824 + (wrap32 (nsec - 1000000000)).toNat }
      (wrap64 (dsec + 1))
  else if nsec < 0 then
    Time.addSec
      { t with wall := t.wall - t.wall % 1073741824 + (wrap32 (nsec + 1000000000)).toNat }
      (wrap64 (dsec - 1))
  else
    Time.addSec { t with wall := t.wall - t.wall % 1073741824 + nsec.toNat } dsec

/-- Go's `t.Equal(u)`, without monotonic readings. -/
def Time.Equal (t u : Time) : Bool :=
  decide (t.sec = u.sec ∧ t.nsec = u.nsec)

/-- Go's `t.Before(u)`, without monotonic readings. -/
def Time.Before (t u : Time) : Bool :=
  decide (t.sec < u.sec ∨ (t.sec = u.sec ∧ t.nsec < u.nsec))

/-- Go's `t.Sub(u)`, without monotonic readings:
`d := Duration(t.sec()-u.sec())*Second + Duration(t.nsec()-u.nsec())` in int64 arithmetic, kept
when `u.Add(d).Equal(t)`; otherwise the least duration when `t.Before(u)` and the greatest one
if not. -/
def Time.Sub (t u : Time) : Int :=
  let d := wrap64 (wrap64 (wrap64 (t.sec - u.sec) * Second) + wrap32 (t.nsec - u.nsec))
  if (u.Add d).Equal t then d
  else if t.Before u then minDuration
  else maxDuration

/-- Go's `d.Minutes()`:
`min := d / Minute; nsec := d % Minute; return float64(min) + float64(nsec)/(60*1e9)`,
with Go's truncated integer division. -/
def Minutes (d : Int) : ℚ :=
  let min := Int.tdiv d Minute
  let nsec := Int.tmod d Minute
  roundF64 (roundF64 (min : ℚ) + roundF64 (roundF64 (nsec : ℚ) / (60 * 1000000000)))

/-! ## Package `strings` -/

/-- The tables of package `unicode` that `strings.Title` consults for the runes above U+007F.
They are not part of the repository; every statement below holds whatever they are. -/
structure UnicodeTables where
  toTitle : Char → Char
  isLetter : Char → Bool
  isDigit : Char → Bool
  isSpace : Char → Bool

/-- Go's `unicode.ToTitle`: on ASCII, a lower-case letter goes to upper case. -/
def ToTitle (U : UnicodeTables) (r : Char) : Char :=
  if r.toNat ≤ 0x7F then
    if 'a' ≤ r ∧ r ≤ 'z' then Char.ofNat (r.toNat - ('a'.toNat - 'A'.toNat)) else r
  else U.toTitle r

/-- The `isSeparator` of package `strings`: ASCII alphanumerics and underscore are not
separators, every other ASCII rune is; above ASCII, letters and digits are not, spaces are. -/
def isSeparator (U : UnicodeTables) (r : Char) : Bool :=
  if r.toNat ≤ 0x7F then
    if '0' ≤ r ∧ r ≤ '9' then false
    else if 'a' ≤ r ∧ r ≤ 'z' then false
    else if 'A' ≤ r ∧ r ≤ 'Z' then false
    else if r = '_' then false
    else true
  else if U.isLetter r || U.isDigit r then false
  else U.isSpace r

/-- The closure that `strings.Title` maps over the runes, `prev` being the rune before. -/
def titleRunes (U : UnicodeTables) : Char → List Char → List Char
  | _, [] => []
  | prev, r :: rs =>
    (if isSeparator U prev then ToTitle U r else r) :: titleRunes U r rs

/-- Go's `strings.Title`: the first letter of every word goes to title case. -/
def Title (U : UnicodeTables) (s : String) : String :=
  String.mk (titleRunes U ' ' s.data)

/-! ## The forecast record -/

/-- One element of `DarkSky.Minutely.Data`. -/
structure MinutelyData where
  Time : int64
  PrecipIntensity : ℚ
  PrecipProbability : ℚ
  PrecipIntensityError : ℚ
  PrecipType : String

/-- The field of `DarkSky.Currently` that `weather` reads. -/
structure Currently where
  PrecipProbability : ℚ

/-- The fields of `DarkSky.Minutely` that `weather` reads. -/
structure Minutely where
  Summary : String
  Data : List MinutelyData

/-- The part of the decoded `DarkSky` record that `weather` reads. -/
structure DarkSky where
  Currently : Currently
  Minutely : Minutely

/-- A run-time panic of the Go program. -/
inductive Panic where
  | indexOutOfRange
  deriving DecidableEq, Repr

deriving instance DecidableEq for Except

/-! ## `main.go` -/

/-- The literal `0.2` of `weather`: an untyped constant, converted to float64 where it is compared
with a float64 field. -/
def threshold : ℚ := roundF64 0.2

/-- Source `subtractTime` (lines 271-274):
`diff := time2.Sub(time1).Minutes(); return -diff`. -/
def subtractTime (time1 time2 : Time) : ℚ :=
  let diff : ℚ := Minutes (time2.Sub time1);
  -diff

/-- The `for` loop of `weather` (lines 254-266) followed by the final `return summary`.  The
locals `precipProb` and `precipInt` only feed `fmt.Println` and are left out. -/
def weatherLoop (U : UnicodeTables) (summary : String) (actualTime : Time) (current : ℚ) :
    List MinutelyData → String
  | [] => summary
  | element :: rest =>
    if threshold < element.PrecipProbability ∧ current < threshold then
      let precipType := element.PrecipType
      let precipTime := Unix element.Time 0
      if actualTime ≠ precipTime then
        Title U precipType ++ " starting in " ++
          formatFloat (subtractTime precipTime actualTime) ++ " mins"
      else weatherLoop U summary actualTime current rest
    else weatherLoop U summary actualTime current rest

/-- Source `weather` (lines 250-268), from the decoded record on: `record.Minutely.Data[0]`
panics on an empty slice; otherwise the loop runs with the first sample's time as anchor. -/
def weather (U : UnicodeTables) (record : DarkSky) : Except Panic String :=
  let summary := record.Minutely.Summary
  match record.Minutely.Data with
  | [] => .error Panic.indexOutOfRange
  | first :: _ =>
    let actualTime := Unix first.Time 0
    .ok (weatherLoop U summary actualTime record.Currently.PrecipProbability record.Minutely.Data)

/-! ## Vocabulary of the statements -/

/-- Tables in which nothing above U+007F is a letter, a digit or a space and `toTitle` changes
nothing: used for the concrete examples, whose strings are ASCII and never reach the tables
(`Title_ascii`). -/
def asciiTables : UnicodeTables := ⟨id, fun _ => false, fun _ => false, fun _ => false⟩

/-- A sample with the given timestamp, probability and type (intensity and intensity error 0).
The probabilities of the examples are float64 values: binary fractions such as `0.25`, or the
rounding `roundF64 q` of a decimal `q`. -/
def sample (t : int64) (p : ℚ) (ty : String) : MinutelyData := ⟨t, 0, p, 0, ty⟩

/-- A sample qualifies as onset, for the anchor timestamp `anchor`: its probability is above the
threshold and its timestamp is not the anchor's. -/
def qualifies (anchor : int64) (e : MinutelyData) : Prop :=
  threshold < e.PrecipProbability ∧ e.Time ≠ anchor

instance (anchor : int64) (e : MinutelyData) : Decidable (qualifies anchor e) := by
  unfold qualifies; infer_instance

/-- The message of line 262 for the sample `e`, the anchor timestamp being `anchor`. -/
def onsetMessage (U : UnicodeTables) (anchor : int64) (e : MinutelyData) : String :=
  Title U e.PrecipType ++ " starting in " ++
    formatFloat (subtractTime (Unix e.Time 0) (Unix anchor 0)) ++ " mins"

/-! ## Rounding to float64 -/

theorem log2Fuel_spec (fuel n : Nat) (hn : n ≤ fuel) (hpos : 0 < n) :
    2 ^ log2Fuel fuel n ≤ n ∧ n < 2 ^ (log2Fuel fuel n + 1) := by
  induction fuel generalizing n with
  | zero => omega
  | succ f ih =>
    unfold log2Fuel
    by_cases h2 : n < 2
    · rw [if_pos h2]
      simp
      omega
    · rw [if_neg h2]
      have h := ih (n / 2) (by omega) (by omega)
      rw [pow_succ, pow_succ]
      rw [pow_succ] at h
      omega

theorem floorLog2_spec (n : Nat) (hpos : 0 < n) :
    2 ^ floorLog2 n ≤ n ∧ n < 2 ^ (floorLog2 n + 1) :=
  log2Fuel_spec n n (le_refl n) hpos

theorem pow2Le_iff (e : Int) (n d : Nat) (hd : 0 < d) :
    pow2Le e n d = true ↔ (2 : ℚ) ^ e ≤ (n : ℚ) / d := by
  have hd' : (0 : ℚ) < d := by exact_mod_cast hd
  unfold pow2Le
  by_cases he : 0 ≤ e
  · rw [if_pos he]
    obtain ⟨k, rfl⟩ := Int.eq_ofNat_of_zero_le he
    simp only [Int.toNat_ofNat, decide_eq_true_eq, zpow_natCast]
    rw [le_div_iff₀ hd']
    constructor
    · intro h
      have : ((d * 2 ^ k : Nat) : ℚ) ≤ n := by exact_mod_cast h
      push_cast at this
      linarith
    · intro h
      have : ((d * 2 ^ k : Nat) : ℚ) ≤ n := by push_cast; linarith
      exact_mod_cast this
  · rw [if_neg he]
    obtain ⟨k, hk⟩ := Int.eq_ofNat_of_zero_le (show 0 ≤ -e by omega)
    have he' : e = -(k : Int) := by omega
    subst he'
    simp only [neg_neg, Int.toNat_ofNat, decide_eq_true_eq, zpow_neg, zpow_natCast]
    have h2 : (0 : ℚ) < 2 ^ k := by positivity
    rw [le_div_iff₀ hd', inv_mul_le_iff₀ h2]
    constructor
    · intro h
      have : ((d : Nat) : ℚ) ≤ ((n * 2 ^ k : Nat) : ℚ) := by exact_mod_cast h
      push_cast at this
      linarith
    · intro h
      have : ((d : Nat) : ℚ) ≤ ((n * 2 ^ k : Nat) : ℚ) := by push_cast; linarith
      exact_mod_cast this

theorem binExp_spec (n d : Nat) (hn : 0 < n) (hd : 0 < d) :
    (2 : ℚ) ^ binExp n d ≤ (n : ℚ) / d ∧ (n : ℚ) / d < (2 : ℚ) ^ (binExp n d + 1) := by
  have hn' : (0 : ℚ) < n := by exact_mod_cast hn
  have hd' : (0 : ℚ) < d := by exact_mod_cast hd
  obtain ⟨ha1, ha2⟩ := floorLog2_spec n hn
  obtain ⟨hb1, hb2⟩ := floorLog2_spec d hd
  have ha1' : (2 : ℚ) ^ (floorLog2 n : Int) ≤ n := by
    rw [zpow_natCast]; exact_mod_cast ha1
  have ha2' : (n : ℚ) < (2 : ℚ) ^ ((floorLog2 n : Int) + 1) := by
    have : (n : ℚ) < (2 : ℚ) ^ (floorLog2 n + 1) := by exact_mod_cast ha2
    rw [show ((floorLog2 n : Int) + 1) = ((floorLog2 n + 1 : Nat) : Int) by push_cast; rfl,
      zpow_natCast]
    exact this
  have hb1' : (2 : ℚ) ^ (floorLog2 d : Int) ≤ d := by
    rw [zpow_natCast]; exact_mod_cast hb1
  have hb2' : (d : ℚ) < (2 : ℚ) ^ ((floorLog2 d : Int) + 1) := by
    have : (d : ℚ) < (2 : ℚ) ^ (floorLog2 d + 1) := by exact_mod_cast hb2
    rw [show ((floorLog2 d : Int) + 1) = ((floorLog2 d + 1 : Nat) : Int) by push_cast; rfl,
      zpow_natCast]
    exact this
  have h2 : (0 : ℚ) < 2 := by norm_num
  have hup : (n : ℚ) / d < (2 : ℚ) ^ ((floorLog2 n : Int) - floorLog2 d + 1) := by
    rw [div_lt_iff₀ hd']
    calc (n : ℚ) < (2 : ℚ) ^ ((floorLog2 n : Int) + 1) := ha2'
      _ = (2 : ℚ) ^ ((floorLog2 n : Int) - floorLog2 d + 1) * (2 : ℚ) ^ (floorLog2 d : Int) := by
        rw [← zpow_add₀ (ne_of_gt h2)]; congr 1; ring
      _ ≤ (2 : ℚ) ^ ((floorLog2 n : Int) - floorLog2 d + 1) * d :=
        mul_le_mul_of_nonneg_left hb1' (le_of_lt (zpow_pos h2 _))
  have hlo : (2 : ℚ) ^ ((floorLog2 n : Int) - floorLog2 d - 1) ≤ (n : ℚ) / d := by
    rw [le_div_iff₀ hd']
    calc (2 : ℚ) ^ ((floorLog2 n : Int) - floorLog2 d - 1) * d
        ≤ (2 : ℚ) ^ ((floorLog2 n : Int) - floorLog2 d - 1) * (2 : ℚ) ^ ((floorLog2 d : Int) + 1) :=
          mul_le_mul_of_nonneg_left (le_of_lt hb2') (le_of_lt (zpow_pos h2 _))
      _ = (2 : ℚ) ^ (floorLog2 n : Int) := by
        rw [← zpow_add₀ (ne_of_gt h2)]; congr 1; ring
      _ ≤ n := ha1'
  unfold binExp
  by_cases hp : pow2Le ((floorLog2 n : Int) - floorLog2 d) n d = true
  · simp only [hp, if_true]
    exact ⟨(pow2Le_iff _ n d hd).mp hp, hup⟩
  · simp only [hp, Bool.false_eq_true, if_false]
    refine ⟨hlo, ?_⟩
    have := (not_congr (pow2Le_iff _ n d hd)).mp hp
    rw [sub_add_cancel]
    exact not_le.mp this

theorem roundHalfEven_spec (n d : Nat) (hd : 0 < d) :
    |(roundHalfEven n d : ℚ) - (n : ℚ) / d| ≤ 1 / 2 := by
  have hd' : (0 : ℚ) < d := by exact_mod_cast hd
  have hdiv : (n : ℚ) / d = (n / d : Nat) + ((n % d : Nat) : ℚ) / d := by
    have h := Nat.div_add_mod n d
    have h' : (n : ℚ) = (d : ℚ) * (n / d : Nat) + (n % d : Nat) := by exact_mod_cast h.symm
    field_simp
    linarith
  have hr : n % d < d := Nat.mod_lt n hd
  have hr' : ((n % d : Nat) : ℚ) < d := by exact_mod_cast hr
  have hr0 : (0 : ℚ) ≤ ((n % d : Nat) : ℚ) := Nat.cast_nonneg _
  have hx0 : (0 : ℚ) ≤ ((n % d : Nat) : ℚ) / d := div_nonneg hr0 (le_of_lt hd')
  have hx1 : ((n % d : Nat) : ℚ) / d < 1 := (div_lt_one hd').mpr hr'
  rw [hdiv, abs_le]
  unfold roundHalfEven
  by_cases h1 : 2 * (n % d) < d
  · have h1' : ((n % d : Nat) : ℚ) / d ≤ 1 / 2 := by
      rw [div_le_iff₀ hd']
      have : ((2 * (n % d) : Nat) : ℚ) < d := by exact_mod_cast h1
      push_cast at this
      linarith
    simp only [h1, if_true]
    constructor <;> linarith
  · by_cases h2 : d < 2 * (n % d)
    · have h2' : 1 / 2 ≤ ((n % d : Nat) : ℚ) / d := by
        rw [le_div_iff₀ hd']
        have : (d : ℚ) < ((2 * (n % d) : Nat) : ℚ) := by exact_mod_cast h2
        push_cast at this
        linarith
      simp only [h1, h2, if_true, if_false]
      push_cast
      constructor <;> linarith
    · have h3 : 2 * (n % d) = d := by omega
      have h3' : ((n % d : Nat) : ℚ) / d = 1 / 2 := by
        rw [div_eq_iff (ne_of_gt hd')]
        have : ((2 * (n % d) : Nat) : ℚ) = d := by exact_mod_cast h3
        push_cast at this
        linarith
      simp only [h1, h2, if_false]
      by_cases h4 : n / d % 2 = 0
      · simp only [h4, if_true]
        constructor <;> linarith
      · simp only [h4, if_false]
        push_cast
        constructor <;> linarith

theorem roundHalfEven_one (m : Nat) : roundHalfEven m 1 = m := by
  simp [roundHalfEven, Nat.mod_one]

theorem scale2_eq (m : Nat) (e : Int) : scale2 m e = (m : ℚ) * (2 : ℚ) ^ e := by
  unfold scale2
  by_cases he : 0 ≤ e
  · rw [if_pos he]
    obtain ⟨k, rfl⟩ := Int.eq_ofNat_of_zero_le he
    simp
  · rw [if_neg he]
    obtain ⟨k, hk⟩ := Int.eq_ofNat_of_zero_le (show 0 ≤ -e by omega)
    have he' : e = -(k : Int) := by omega
    subst he'
    simp only [neg_neg, Int.toNat_ofNat, zpow_neg, zpow_natCast]
    rw [Rat.mkRat_eq_div]
    push_cast
    rw [div_eq_mul_inv]

theorem significand_spec (n d : Nat) (e : Int) (hd : 0 < d) :
    |(significand n d e : ℚ) - (n : ℚ) / d / (2 : ℚ) ^ e| ≤ 1 / 2 := by
  have hd' : (0 : ℚ) < d := by exact_mod_cast hd
  unfold significand
  by_cases he : 0 ≤ e
  · rw [if_pos he]
    obtain ⟨k, rfl⟩ := Int.eq_ofNat_of_zero_le he
    have h := roundHalfEven_spec n (d * 2 ^ k) (by positivity)
    simp only [Int.toNat_ofNat, zpow_natCast]
    push_cast at h
    rw [div_div]
    exact h
  · rw [if_neg he]
    obtain ⟨k, hk⟩ := Int.eq_ofNat_of_zero_le (show 0 ≤ -e by omega)
    have he' : e = -(k : Int) := by omega
    subst he'
    have h := roundHalfEven_spec (n * 2 ^ k) d hd
    simp only [neg_neg, Int.toNat_ofNat, zpow_neg, zpow_natCast]
    push_cast at h
    rw [div_inv_eq_mul, div_mul_eq_mul_div]
    exact h

/-- Shape of the rounding of a positive rational: a significand `m` within one half of
`q / 2 ^ e`, which lies in `[2 ^ 52, 2 ^ 53)`. -/
theorem roundF64_pos_shape (q : ℚ) (hq : 0 < q) :
    ∃ (m : Nat) (e : Int), roundF64 q = (m : ℚ) * (2 : ℚ) ^ e ∧
      |(m : ℚ) - q / (2 : ℚ) ^ e| ≤ 1 / 2 ∧
      (2 : ℚ) ^ (52 : Nat) ≤ q / (2 : ℚ) ^ e ∧ q / (2 : ℚ) ^ e < (2 : ℚ) ^ (53 : Nat) := by
  have hnum : 0 < q.num := Rat.num_pos.mpr hq
  have hn : 0 < q.num.natAbs := Int.natAbs_pos.mpr (ne_of_gt hnum)
  have hd : 0 < q.den := q.den_pos
  have hqe : ((q.num.natAbs : Nat) : ℚ) / q.den = q := by
    have h1 : ((q.num.natAbs : Nat) : ℚ) = (q.num : ℚ) := by
      have h : ((q.num.natAbs : Nat) : Int) = q.num := Int.natAbs_of_nonneg (le_of_lt hnum)
      rw [← Int.cast_natCast, h]
    rw [h1]
    exact Rat.num_div_den q
  obtain ⟨hlo, hhi⟩ := binExp_spec q.num.natAbs q.den hn hd
  rw [hqe] at hlo hhi
  have hs := significand_spec q.num.natAbs q.den (binExp q.num.natAbs q.den - 52) hd
  rw [hqe] at hs
  have h2 : (0 : ℚ) < 2 := by norm_num
  have hpe : (0 : ℚ) < (2 : ℚ) ^ (binExp q.num.natAbs q.den - 52) := zpow_pos h2 _
  refine ⟨significand q.num.natAbs q.den (binExp q.num.natAbs q.den - 52),
    binExp q.num.natAbs q.den - 52, ?_, hs, ?_, ?_⟩
  · unfold roundF64
    rw [if_neg (ne_of_gt hq)]
    simp only [not_lt.mpr (le_of_lt hq), if_false]
    exact scale2_eq _ _
  · rw [le_div_iff₀ hpe, ← zpow_natCast, ← zpow_add₀ (ne_of_gt h2)]
    have : ((52 : Nat) : Int) + (binExp q.num.natAbs q.den - 52) = binExp q.num.natAbs q.den := by
      push_cast; ring
    rw [this]
    exact hlo
  · rw [div_lt_iff₀ hpe, ← zpow_natCast, ← zpow_add₀ (ne_of_gt h2)]
    have : ((53 : Nat) : Int) + (binExp q.num.natAbs q.den - 52)
        = binExp q.num.natAbs q.den + 1 := by
      push_cast; ring
    rw [this]
    exact hhi

theorem roundF64_zero : roundF64 0 = 0 := by
  simp [roundF64]

theorem roundF64_neg (q : ℚ) : roundF64 (-q) = -roundF64 q := by
  unfold roundF64
  by_cases h0 : q = 0
  · simp [h0]
  · have h0' : -q ≠ 0 := neg_ne_zero.mpr h0
    rw [if_neg h0, if_neg h0']
    simp only [Rat.neg_num, Int.natAbs_neg, Rat.neg_den]
    rcases lt_or_gt_of_ne h0 with h | h
    · have h' : ¬ (-q < 0) := by
        intro hh
        linarith [neg_pos.mpr h]
      simp [h, h']
    · have h' : -q < 0 := neg_lt_zero.mpr h
      have h'' : ¬ (q < 0) := not_lt.mpr (le_of_lt h)
      simp [h', h'']

theorem roundF64_pos (q : ℚ) (hq : 0 < q) : 0 < roundF64 q := by
  obtain ⟨m, e, hr, hm, hlo, _⟩ := roundF64_pos_shape q hq
  rw [hr]
  have h2 : (0 : ℚ) < (2 : ℚ) ^ e := zpow_pos (by norm_num) _
  have hm' : (0 : ℚ) < m := by
    have := (abs_le.mp hm).1
    have h52 : (1 : ℚ) ≤ (2 : ℚ) ^ (52 : Nat) := one_le_pow₀ (by norm_num)
    linarith
  exact mul_pos hm' h2

theorem roundF64_neg_of_neg (q : ℚ) (hq : q < 0) : roundF64 q < 0 := by
  have h := roundF64_pos (-q) (neg_pos.mpr hq)
  rw [roundF64_neg] at h
  linarith

theorem roundF64_nonneg (q : ℚ) (hq : 0 ≤ q) : 0 ≤ roundF64 q := by
  rcases eq_or_lt_of_le hq with h | h
  · rw [← h, roundF64_zero]
  · exact le_of_lt (roundF64_pos q h)

/-- The rounding error is at most `|q| / 2 ^ 53`. -/
theorem roundF64_error (q : ℚ) : |roundF64 q - q| ≤ |q| / (2 : ℚ) ^ (53 : Nat) := by
  have key : ∀ x : ℚ, 0 < x → |roundF64 x - x| ≤ x / (2 : ℚ) ^ (53 : Nat) := by
    intro x hx
    obtain ⟨m, e, hr, hm, hlo, _⟩ := roundF64_pos_shape x hx
    have h2 : (0 : ℚ) < (2 : ℚ) ^ e := zpow_pos (by norm_num) _
    have hx' : x = x / (2 : ℚ) ^ e * (2 : ℚ) ^ e := by field_simp
    have h1 : roundF64 x - x = ((m : ℚ) - x / (2 : ℚ) ^ e) * (2 : ℚ) ^ e := by
      rw [hr]; field_simp
    rw [h1, abs_mul, abs_of_pos h2]
    have h3 : (2 : ℚ) ^ e ≤ x / (2 : ℚ) ^ (52 : Nat) := by
      rw [le_div_iff₀ (by positivity)]
      rw [le_div_iff₀ h2] at hlo
      linarith
    calc |(m : ℚ) - x / (2 : ℚ) ^ e| * (2 : ℚ) ^ e ≤ 1 / 2 * (2 : ℚ) ^ e :=
          mul_le_mul_of_nonneg_right hm (le_of_lt h2)
      _ ≤ 1 / 2 * (x / (2 : ℚ) ^ (52 : Nat)) := by linarith
      _ = x / (2 : ℚ) ^ (53 : Nat) := by norm_num; ring
  rcases lt_trichotomy q 0 with h | h | h
  · have := key (-q) (neg_pos.mpr h)
    rw [roundF64_neg] at this
    rw [abs_of_neg h]
    have e1 : -roundF64 q - -q = -(roundF64 q - q) := by ring
    rw [e1, abs_neg] at this
    exact this
  · subst h
    simp [roundF64_zero]
  · rw [abs_of_pos h]
    exact key q h

theorem roundF64_natCast (n : Nat) (h : n < 2 ^ 53) : roundF64 (n : ℚ) = n := by
  rcases Nat.eq_zero_or_pos n with h0 | hpos
  · subst h0
    simp [roundF64_zero]
  · have hq : (0 : ℚ) < n := by exact_mod_cast hpos
    obtain ⟨hlo, _⟩ := binExp_spec n 1 hpos Nat.one_pos
    have hE : binExp n 1 < 53 := by
      by_contra hge
      have hge' : (53 : Int) ≤ binExp n 1 := not_lt.mp hge
      have h1 : (2 : ℚ) ^ (53 : Int) ≤ (2 : ℚ) ^ binExp n 1 :=
        zpow_le_zpow_right₀ (by norm_num) hge'
      have h2 : ((n : Nat) : ℚ) < (2 : ℚ) ^ (53 : Nat) := by exact_mod_cast h
      rw [← zpow_natCast] at h2
      simp only [Nat.cast_one, div_one] at hlo
      have : (2 : ℚ) ^ (53 : Int) < (2 : ℚ) ^ ((53 : Nat) : Int) := lt_of_le_of_lt (h1.trans hlo) h2
      simp at this
    unfold roundF64
    rw [if_neg (ne_of_gt hq)]
    simp only [not_lt.mpr (le_of_lt hq), if_false, Rat.num_natCast, Int.natAbs_ofNat,
      Rat.den_natCast]
    rw [scale2_eq]
    unfold significand
    by_cases he : 0 ≤ binExp n 1 - 52
    · have he0 : binExp n 1 - 52 = 0 := by omega
      rw [he0]
      simp [roundHalfEven_one]
    · rw [if_neg he]
      obtain ⟨k, hk⟩ := Int.eq_ofNat_of_zero_le (show 0 ≤ -(binExp n 1 - 52) by omega)
      have he' : binExp n 1 - 52 = -(k : Int) := by omega
      rw [he']
      simp only [neg_neg, Int.toNat_ofNat, roundHalfEven_one, zpow_neg, zpow_natCast]
      push_cast
      field_simp

theorem roundF64_intCast (z : Int) (h : |z| < 2 ^ 53) : roundF64 (z : ℚ) = z := by
  rcases le_or_lt 0 z with hz | hz
  · obtain ⟨n, rfl⟩ := Int.eq_ofNat_of_zero_le hz
    rw [abs_of_nonneg hz] at h
    have hn : n < 2 ^ 53 := by exact_mod_cast h
    simpa using roundF64_natCast n hn
  · obtain ⟨n, hn⟩ := Int.eq_ofNat_of_zero_le (show 0 ≤ -z by omega)
    have hz' : z = -(n : Int) := by omega
    subst hz'
    rw [abs_neg, abs_of_nonneg (Int.ofNat_nonneg n)] at h
    have hn' : n < 2 ^ 53 := by exact_mod_cast h
    have := roundF64_natCast n hn'
    push_cast
    rw [roundF64_neg, this]

theorem tmod_neg_left (a b : Int) : Int.tmod (-a) b = -Int.tmod a b := by
  rw [Int.tmod_def, Int.tmod_def, Int.neg_tdiv]
  ring

theorem Minutes_neg (d : Int) : Minutes (-d) = -Minutes d := by
  unfold Minutes
  simp only [Int.neg_tdiv, tmod_neg_left, Int.cast_neg, roundF64_neg, neg_div]
  rw [← neg_add, roundF64_neg]

theorem Minutes_pos (d : Int) (hd : 0 < d) : 0 < Minutes d := by
  have hM : (0 : Int) < Minute := by decide
  have hmin : 0 ≤ Int.tdiv d Minute := Int.tdiv_nonneg (le_of_lt hd) (le_of_lt hM)
  have hnsec : 0 ≤ Int.tmod d Minute := Int.tmod_nonneg _ (le_of_lt hd)
  have hsum := Int.tdiv_add_tmod d Minute
  have h1 : 0 ≤ roundF64 ((Int.tdiv d Minute : Int) : ℚ) :=
    roundF64_nonneg _ (by exact_mod_cast hmin)
  have h2 : 0 ≤ roundF64 (roundF64 ((Int.tmod d Minute : Int) : ℚ) / (60 * 1000000000)) :=
    roundF64_nonneg _ (div_nonneg (roundF64_nonneg _ (by exact_mod_cast hnsec)) (by norm_num))
  unfold Minutes
  apply roundF64_pos
  rcases eq_or_lt_of_le hmin with h | h
  · have hpos : 0 < Int.tmod d Minute := by
      rw [← h, mul_zero, zero_add] at hsum
      omega
    have : 0 < roundF64 (roundF64 ((Int.tmod d Minute : Int) : ℚ) / (60 * 1000000000)) :=
      roundF64_pos _ (div_pos (roundF64_pos _ (by exact_mod_cast hpos)) (by norm_num))
    linarith
  · have : 0 < roundF64 ((Int.tdiv d Minute : Int) : ℚ) :=
      roundF64_pos _ (by exact_mod_cast h)
    linarith

theorem Minutes_neg_of_neg (d : Int) (hd : d < 0) : Minutes d < 0 := by
  have h := Minutes_pos (-d) (by omega)
  rw [Minutes_neg] at h
  linarith

theorem Minutes_of_nonneg (d : Int) (h0 : 0 ≤ d) (h : d ≤ 2 ^ 63) :
    Minutes d = roundF64 (((d / 60000000000 : Int) : ℚ) +
      roundF64 (((d % 60000000000 : Int) : ℚ) / (60 * 1000000000))) := by
  have hM : Minute = 60000000000 := by decide
  unfold Minutes
  rw [hM, Int.tdiv_eq_ediv h0 (by norm_num), Int.tmod_eq_emod h0 (by norm_num)]
  have h1 : |d / 60000000000| < 2 ^ 53 := by
    rw [abs_of_nonneg (by omega)]
    norm_num at h ⊢
    omega
  have h2 : |d % 60000000000| < 2 ^ 53 := by
    rw [abs_of_nonneg (by omega)]
    norm_num
    omega
  simp only [roundF64_intCast _ h1, roundF64_intCast _ h2]

theorem Minutes_exact_of_nonneg (d : Int) (h0 : 0 ≤ d) (h : d ≤ 2 ^ 63)
    (hdvd : (60000000000 : Int) ∣ d) : Minutes d = (d : ℚ) / 60000000000 := by
  rw [Minutes_of_nonneg d h0 h]
  obtain ⟨k, rfl⟩ := hdvd
  have hk : (60000000000 * k) / 60000000000 = k := by omega
  have hr : (60000000000 * k) % 60000000000 = 0 := by omega
  rw [hk, hr]
  have hk' : |k| < 2 ^ 53 := by
    rw [abs_of_nonneg (by omega)]
    norm_num at h ⊢
    omega
  simp only [Int.cast_zero, zero_div, roundF64_zero, add_zero, roundF64_intCast _ hk']
  push_cast
  field_simp

theorem Minutes_exact (d : Int) (h : |d| ≤ 2 ^ 63) (hdvd : (60000000000 : Int) ∣ d) :
    Minutes d = (d : ℚ) / 60000000000 := by
  rcases le_or_lt 0 d with h0 | h0
  · rw [abs_of_nonneg h0] at h
    exact Minutes_exact_of_nonneg d h0 h hdvd
  · rw [abs_of_neg h0] at h
    have := Minutes_exact_of_nonneg (-d) (by omega) h ((Int.dvd_neg).mpr hdvd)
    rw [Minutes_neg] at this
    have e : Minutes d = -(((-d : Int) : ℚ) / 60000000000) := by rw [← this]; ring
    rw [e]
    push_cast
    ring

theorem Minutes_error_of_nonneg (d : Int) (h0 : 0 ≤ d) (h : d ≤ 2 ^ 63) :
    |Minutes d - (d : ℚ) / 60000000000| ≤ (d : ℚ) / 60000000000 / (2 : ℚ) ^ (51 : Nat) := by
  rw [Minutes_of_nonneg d h0 h]
  have hd : (d : ℚ) = ((d / 60000000000 : Int) : ℚ) * 60000000000 + ((d % 60000000000 : Int) : ℚ) := by
    have := Int.ediv_add_emod d 60000000000
    have h' : ((60000000000 * (d / 60000000000) + d % 60000000000 : Int) : ℚ) = (d : ℚ) := by
      rw [this]
    push_cast at h'
    linarith
  have hm0 : (0 : ℚ) ≤ ((d / 60000000000 : Int) : ℚ) := by
    have : 0 ≤ d / 60000000000 := by omega
    exact_mod_cast this
  have hr0 : (0 : ℚ) ≤ ((d % 60000000000 : Int) : ℚ) := by
    have : 0 ≤ d % 60000000000 := by omega
    exact_mod_cast this
  generalize ((d / 60000000000 : Int) : ℚ) = m at hd hm0 ⊢
  generalize ((d % 60000000000 : Int) : ℚ) = r at hd hr0 ⊢
  have h6 : (60 * 1000000000 : ℚ) = 60000000000 := by norm_num
  rw [h6]
  set f : ℚ := r / 60000000000 with hf
  have hf0 : 0 ≤ f := div_nonneg hr0 (by norm_num)
  have hx : (d : ℚ) / 60000000000 = m + f := by
    rw [hd, hf]; field_simp
  rw [hx]
  have e1 := roundF64_error f
  rw [abs_of_nonneg hf0] at e1
  have hrf0 : 0 ≤ roundF64 f := roundF64_nonneg f hf0
  have e2 := roundF64_error (m + roundF64 f)
  rw [abs_of_nonneg (add_nonneg hm0 hrf0)] at e2
  have e1' := abs_le.mp e1
  have e2' := abs_le.mp e2
  have hp : (0 : ℚ) < (2 : ℚ) ^ (53 : Nat) := by positivity
  have hb1 : f / (2 : ℚ) ^ (53 : Nat) ≤ (m + f) / (2 : ℚ) ^ (53 : Nat) :=
    div_le_div_of_nonneg_right (by linarith) (le_of_lt hp)
  have hb2 : (m + roundF64 f) / (2 : ℚ) ^ (53 : Nat)
      ≤ (m + f) * (1 + 1 / (2 : ℚ) ^ (53 : Nat)) / (2 : ℚ) ^ (53 : Nat) := by
    apply div_le_div_of_nonneg_right _ (le_of_lt hp)
    have : (m + f) * (1 + 1 / (2 : ℚ) ^ (53 : Nat)) = m + f + (m + f) / (2 : ℚ) ^ (53 : Nat) := by
      field_simp
      ring
    rw [this]
    linarith
  have hfin : (m + f) * (1 + 1 / (2 : ℚ) ^ (53 : Nat)) / (2 : ℚ) ^ (53 : Nat)
      + (m + f) / (2 : ℚ) ^ (53 : Nat) ≤ (m + f) / (2 : ℚ) ^ (51 : Nat) := by
    have hmf : 0 ≤ m + f := add_nonneg hm0 hf0
    have : (m + f) * (1 + 1 / (2 : ℚ) ^ (53 : Nat)) / (2 : ℚ) ^ (53 : Nat)
        + (m + f) / (2 : ℚ) ^ (53 : Nat)
        = (m + f) * ((2 + 1 / (2 : ℚ) ^ (53 : Nat)) / (2 : ℚ) ^ (53 : Nat)) := by
      field_simp
      ring
    rw [this, div_eq_mul_inv (m + f)]
    apply mul_le_mul_of_nonneg_left _ hmf
    norm_num
  rw [abs_le]
  constructor <;> linarith

theorem Minutes_error (d : Int) (h : |d| ≤ 2 ^ 63) :
    |Minutes d - (d : ℚ) / 60000000000| ≤ |(d : ℚ) / 60000000000| / (2 : ℚ) ^ (51 : Nat) := by
  rcases le_or_lt 0 d with h0 | h0
  · rw [abs_of_nonneg h0] at h
    have hq : (0 : ℚ) ≤ (d : ℚ) / 60000000000 := div_nonneg (by exact_mod_cast h0) (by norm_num)
    rw [abs_of_nonneg hq]
    exact Minutes_error_of_nonneg d h0 h
  · rw [abs_of_neg h0] at h
    have := Minutes_error_of_nonneg (-d) (by omega) h
    rw [Minutes_neg] at this
    have hq : (d : ℚ) / 60000000000 < 0 := div_neg_of_neg_of_pos (by exact_mod_cast h0) (by norm_num)
    rw [abs_of_neg hq]
    have e : -Minutes d - ((-d : Int) : ℚ) / 60000000000
        = -(Minutes d - (d : ℚ) / 60000000000) := by
      push_cast; ring
    rw [e, abs_neg] at this
    have e2 : ((-d : Int) : ℚ) / 60000000000 = -((d : ℚ) / 60000000000) := by
      push_cast; ring
    rw [e2] at this
    exact this

/-- The float64 that the literal `0.2` denotes lies slightly above one fifth. -/
theorem threshold_eq : threshold = 3602879701896397 / 18014398509481984 ∧ 1 / 5 < threshold := by
  decide!

/-! ## Formatting, on examples -/

/-- Outputs of `fmt.Sprint` on a few float64 values: whole numbers without decimal point, the
shortest digits that read back, the `%e` form from `1e+06` on and below `0.0001`. -/
theorem formatFloat_examples :
    formatFloat 3 = "3" ∧ formatFloat (-1) = "-1" ∧ formatFloat (5 / 2) = "2.5" ∧
    formatFloat (roundF64 (1 / 10)) = "0.1" ∧ formatFloat (roundF64 (1 / 60)) = "0.016666666666666666" ∧
    formatFloat 123456 = "123456" ∧ formatFloat 1000000 = "1e+06" ∧
    formatFloat (1 / 8192) = "0.0001220703125" ∧ formatFloat (1 / 16384) = "6.103515625e-05" := by
  decide!

/-! ## Title case -/

theorem titleRunes_ascii (U V : UnicodeTables) (prev : Char) (rs : List Char)
    (hprev : prev.toNat ≤ 0x7F) (h : ∀ c ∈ rs, c.toNat ≤ 0x7F) :
    titleRunes U prev rs = titleRunes V prev rs := by
  induction rs generalizing prev with
  | nil => rfl
  | cons r rs ih =>
    have hr : r.toNat ≤ 0x7F := h r (by simp)
    have hsep : isSeparator U prev = isSeparator V prev := by
      simp only [isSeparator, hprev, if_true]
    have htitle : ToTitle U r = ToTitle V r := by
      simp only [ToTitle, hr, if_true]
    simp only [titleRunes, hsep, htitle]
    rw [ih r hr (fun c hc => h c (by simp [hc]))]

/-- `strings.Title` on two precipitation types, whatever the tables. -/
theorem Title_examples (U : UnicodeTables) :
    Title U "rain" = "Rain" ∧ Title U "freezing rain" = "Freezing Rain" ∧ Title U "" = "" :=
  ⟨rfl, rfl, rfl⟩

/-- On text without runes above U+007F, `strings.Title` does not depend on the tables. -/
theorem Title_ascii (U V : UnicodeTables) (s : String) (h : ∀ c ∈ s.data, c.toNat ≤ 0x7F) :
    Title U s = Title V s := by
  unfold Title
  rw [titleRunes_ascii U V ' ' s.data (by decide) h]

/-! ## Package `time` -/

theorem wrap64_mem (x : Int) :
    -9223372036854775808 ≤ wrap64 x ∧ wrap64 x ≤ 9223372036854775807 := by
  unfold wrap64
  omega

theorem Unix_zero (s : Int) : Unix s 0 = ⟨0, wrap64 (s + 62135596800)⟩ := by
  simp [Unix, unixTime, wrap32, unixToInternal]

theorem tdiv_tmod_facts (d : Int) :
    d = 1000000000 * Int.tdiv d 1000000000 + Int.tmod d 1000000000 ∧
    (0 ≤ d → 0 ≤ Int.tmod d 1000000000 ∧ Int.tmod d 1000000000 < 1000000000) ∧
    (d ≤ 0 → Int.tmod d 1000000000 ≤ 0 ∧ -1000000000 < Int.tmod d 1000000000) := by
  refine ⟨(Int.tdiv_add_tmod d 1000000000).symm, ?_, ?_⟩
  · intro h
    exact ⟨Int.tmod_nonneg _ h, Int.tmod_lt_of_pos _ (by norm_num)⟩
  · intro h
    have h1 := Int.tmod_nonneg 1000000000 (show 0 ≤ -d by omega)
    have h2 := Int.tmod_lt_of_pos (-d) (show (0 : Int) < 1000000000 by norm_num)
    have h3 : Int.tmod (-d) 1000000000 = -Int.tmod d 1000000000 := by
      rw [Int.tmod_def, Int.tmod_def, Int.neg_tdiv]
      ring
    omega

theorem wrap32_of_mem (x : Int) (h : -2147483648 ≤ x ∧ x ≤ 2147483647) : wrap32 x = x := by
  unfold wrap32
  omega

theorem wrap64_of_mem (x : Int) (h : -9223372036854775808 ≤ x ∧ x ≤ 9223372036854775807) :
    wrap64 x = x := by
  unfold wrap64
  omega

/-- The seconds after `addSec`: the exact sum when it is an int64, the nearer end of the range
(short of `-2 ^ 63`) when it is not. -/
theorem addSec_ext (w : Nat) (S q : Int)
    (hS : -9223372036854775808 ≤ S ∧ S ≤ 9223372036854775807)
    (hq : -9223372036854775808 ≤ q ∧ q ≤ 9223372036854775807) :
    (Time.addSec ⟨w, S⟩ q).ext =
      if -9223372036854775808 ≤ S + q ∧ S + q ≤ 9223372036854775807 then S + q
      else if 0 < q then 9223372036854775807 else -9223372036854775807 := by
  unfold Time.addSec
  simp only [decide_eq_decide]
  by_cases hfit : -9223372036854775808 ≤ S + q ∧ S + q ≤ 9223372036854775807
  · rw [if_pos hfit, wrap64_of_mem _ hfit]
    have : (S < S + q ↔ 0 < q) := by omega
    rw [if_pos this]
  · rw [if_neg hfit]
    have hne : ¬ (S < wrap64 (S + q) ↔ 0 < q) := by
      unfold wrap64
      omega
    rw [if_neg hne]
    split_ifs <;> rfl

theorem addSec_wall (w : Nat) (S q : Int) : (Time.addSec ⟨w, S⟩ q).wall = w := by
  simp only [Time.addSec]
  split_ifs <;> rfl

theorem addSec_ext_wall (w v : Nat) (S q : Int) :
    (Time.addSec ⟨w, S⟩ q).ext = (Time.addSec ⟨v, S⟩ q).ext := by
  simp only [Time.addSec]
  split_ifs <;> rfl

/-- Adding a duration to a time from `time.Unix(_, 0)` gives back a time with zero nanoseconds
and the seconds `A` only for a whole number of seconds that `addSec` brings to `A`. -/
theorem Add_Equal_iff (S A d : Int) :
    (Time.Add ⟨0, S⟩ d).Equal ⟨0, A⟩ = true ↔
      Int.tmod d 1000000000 = 0 ∧ (Time.addSec ⟨0, S⟩ (Int.tdiv d 1000000000)).ext = A := by
  obtain ⟨_, hq2, hq3⟩ := tdiv_tmod_facts d
  have hm : -1000000000 < Int.tmod d 1000000000 ∧ Int.tmod d 1000000000 < 1000000000 := by
    rcases le_total 0 d with h | h
    · have := hq2 h
      omega
    · have := hq3 h
      omega
  simp only [Time.Add, Time.Equal, Time.nsec, Time.sec, Nat.zero_mod, Nat.cast_zero, zero_add,
    Nat.sub_zero, decide_eq_true_eq]
  generalize Int.tdiv d 1000000000 = q
  generalize Int.tmod d 1000000000 = m at hm
  rw [wrap32_of_mem m (by omega), wrap32_of_mem m (by omega)]
  have hno : ¬ (1000000000 ≤ m) := by omega
  rw [if_neg hno]
  by_cases hneg : m < 0
  · rw [if_pos hneg, wrap32_of_mem _ (by omega), addSec_wall]
    constructor
    · rintro ⟨_, h⟩
      omega
    · rintro ⟨h, _⟩
      omega
  · rw [if_neg hneg, addSec_wall, addSec_ext_wall m.toNat 0]
    constructor
    · rintro ⟨h1, h2⟩
      refine ⟨by omega, h1⟩
    · rintro ⟨h1, h2⟩
      refine ⟨h2, ?_⟩
      subst h1
      rfl

/-- `t.Sub(u)` on two times from `time.Unix(_, 0)`, in terms of their internal seconds: the
sign is that of `t.ext - u.ext`, and the value is exact when the difference fits a duration. -/
theorem Sub_ext (A S : Int)
    (hA : -9223372036854775808 ≤ A ∧ A ≤ 9223372036854775807)
    (hS : -9223372036854775808 ≤ S ∧ S ≤ 9223372036854775807) :
    (A < S → Time.Sub ⟨0, A⟩ ⟨0, S⟩ < 0) ∧
    (S < A → 0 < Time.Sub ⟨0, A⟩ ⟨0, S⟩) ∧
    (-9223372036 ≤ A - S → A - S ≤ 9223372036 →
      Time.Sub ⟨0, A⟩ ⟨0, S⟩ = (A - S) * 1000000000) := by
  have hw0 : wrap32 0 = 0 := by decide
  have hsub : Time.Sub ⟨0, A⟩ ⟨0, S⟩ =
      if (Time.Add ⟨0, S⟩ (wrap64 (wrap64 (A - S) * 1000000000))).Equal ⟨0, A⟩ = true
      then wrap64 (wrap64 (A - S) * 1000000000)
      else if A < S then -9223372036854775808 else 9223372036854775807 := by
    simp only [Time.Sub, Time.Before, Time.nsec, Time.sec, Second, minDuration, maxDuration,
      Nat.zero_mod, Nat.cast_zero, sub_zero, hw0, add_zero, lt_self_iff_false, and_false,
      or_false, decide_eq_true_eq]
    rw [wrap64_of_mem _ (wrap64_mem _)]
    norm_num
  rw [hsub]
  simp only [Add_Equal_iff]
  have hdm := wrap64_mem (wrap64 (A - S) * 1000000000)
  generalize hd : wrap64 (wrap64 (A - S) * 1000000000) = d at hdm ⊢
  obtain ⟨hq1, hq2, hq3⟩ := tdiv_tmod_facts d
  have hqm : -9223372036854775808 ≤ Int.tdiv d 1000000000 ∧
      Int.tdiv d 1000000000 ≤ 9223372036854775807 := by
    rcases le_total 0 d with h | h
    · have := hq2 h
      omega
    · have := hq3 h
      omega
  rw [addSec_ext 0 S _ hS hqm]
  generalize Int.tdiv d 1000000000 = q at hq1 hqm ⊢
  generalize Int.tmod d 1000000000 = m at hq1 hq2 hq3 ⊢
  refine ⟨?_, ?_, ?_⟩
  · intro h
    split_ifs <;> omega
  · intro h
    by_cases hone : A - S = 1
    · have hw : wrap64 (wrap64 1 * 1000000000) = 1000000000 := by decide
      rw [hone, hw] at hd
      split_ifs <;> omega
    · split_ifs <;> omega
  · intro h1 h2
    have hx : wrap64 (A - S) = A - S := wrap64_of_mem _ (by omega)
    rw [hx, wrap64_of_mem _ (by omega)] at hd
    have hm0 : m = 0 := by omega
    have hqe : q = A - S := by omega
    have hfit : -9223372036854775808 ≤ S + q ∧ S + q ≤ 9223372036854775807 := by omega
    rw [if_pos hfit, if_pos ⟨hm0, by omega⟩]
    exact hd.symm

theorem Unix_zero_inj (a b : int64) : Unix a 0 = Unix b 0 ↔ a = b := by
  rw [Unix_zero, Unix_zero]
  constructor
  · intro h
    have hext : wrap64 ((a : Int) + 62135596800) = wrap64 ((b : Int) + 62135596800) :=
      congrArg Time.ext h
    have ha := a.property
    have hb := b.property
    apply Subtype.ext
    unfold wrap64 at hext
    omega
  · intro h
    rw [h]

/-! ## The loop -/

theorem weatherLoop_cons_skip (U : UnicodeTables) (summary : String) (anchor : int64) (c : ℚ)
    (e : MinutelyData) (rest : List MinutelyData)
    (h : ¬ (c < threshold ∧ qualifies anchor e)) :
    weatherLoop U summary (Unix anchor 0) c (e :: rest)
      = weatherLoop U summary (Unix anchor 0) c rest := by
  unfold qualifies at h
  by_cases h1 : threshold < e.PrecipProbability ∧ c < threshold
  · have h2 : e.Time = anchor := by
      by_contra hne
      exact h ⟨h1.2, h1.1, hne⟩
    simp [weatherLoop, h1, h2]
  · simp [weatherLoop, h1]

theorem weatherLoop_cons_onset (U : UnicodeTables) (summary : String) (anchor : int64) (c : ℚ)
    (e : MinutelyData) (rest : List MinutelyData)
    (hc : c < threshold) (h : qualifies anchor e) :
    weatherLoop U summary (Unix anchor 0) c (e :: rest) = onsetMessage U anchor e := by
  have h1 : threshold < e.PrecipProbability ∧ c < threshold := ⟨h.1, hc⟩
  have h2 : ¬ (Unix anchor 0 = Unix e.Time 0) :=
    fun h' => h.2 ((Unix_zero_inj anchor e.Time).mp h').symm
  simp [weatherLoop, h1, h2, onsetMessage]

theorem weatherLoop_append_skip (U : UnicodeTables) (summary : String) (anchor : int64) (c : ℚ)
    (pre suf : List MinutelyData)
    (h : ∀ x ∈ pre, ¬ (c < threshold ∧ qualifies anchor x)) :
    weatherLoop U summary (Unix anchor 0) c (pre ++ suf)
      = weatherLoop U summary (Unix anchor 0) c suf := by
  induction pre with
  | nil => rfl
  | cons x xs ih =>
    rw [List.cons_append, weatherLoop_cons_skip U summary anchor c x _ (h x (by simp))]
    exact ih (fun y hy => h y (by simp [hy]))

theorem weatherLoop_remove (U : UnicodeTables) (summary : String) (anchor : int64) (c : ℚ)
    (pre suf : List MinutelyData) (e : MinutelyData)
    (h : ¬ (c < threshold ∧ qualifies anchor e)) :
    weatherLoop U summary (Unix anchor 0) c (pre ++ e :: suf)
      = weatherLoop U summary (Unix anchor 0) c (pre ++ suf) := by
  induction pre with
  | nil => exact weatherLoop_cons_skip U summary anchor c e suf h
  | cons x xs ih =>
    by_cases hx : c < threshold ∧ qualifies anchor x
    · rw [List.cons_append, List.cons_append,
        weatherLoop_cons_onset U summary anchor c x _ hx.1 hx.2,
        weatherLoop_cons_onset U summary anchor c x _ hx.1 hx.2]
    · rw [List.cons_append, List.cons_append, weatherLoop_cons_skip U summary anchor c x _ hx,
        weatherLoop_cons_skip U summary anchor c x _ hx]
      exact ih

/-- What the loop returns: the summary, or the message of a sample that qualifies, met while
the current probability is below the threshold. -/
theorem weatherLoop_cases (U : UnicodeTables) (summary : String) (anchor : int64) (c : ℚ)
    (data : List MinutelyData) :
    weatherLoop U summary (Unix anchor 0) c data = summary ∨
      ∃ e ∈ data, c < threshold ∧ qualifies anchor e ∧
        weatherLoop U summary (Unix anchor 0) c data = onsetMessage U anchor e := by
  induction data with
  | nil => exact Or.inl rfl
  | cons x xs ih =>
    by_cases hx : c < threshold ∧ qualifies anchor x
    · exact Or.inr ⟨x, by simp, hx.1, hx.2,
        weatherLoop_cons_onset U summary anchor c x xs hx.1 hx.2⟩
    · rw [weatherLoop_cons_skip U summary anchor c x xs hx]
      rcases ih with h | ⟨e, he, h1, h2, h3⟩
      · exact Or.inl h
      · exact Or.inr ⟨e, by simp [he], h1, h2, h3⟩

/-- The loop returns at the sample of lowest index that qualifies. -/
theorem weatherLoop_index (U : UnicodeTables) (summary : String) (anchor : int64) (c : ℚ)
    (hc : c < threshold) (data : List MinutelyData) (i : Nat) (e : MinutelyData)
    (hi : data[i]? = some e) (he : qualifies anchor e)
    (hfirst : ∀ j x, j < i → data[j]? = some x → ¬ qualifies anchor x) :
    weatherLoop U summary (Unix anchor 0) c data = onsetMessage U anchor e := by
  induction data generalizing i with
  | nil => simp at hi
  | cons x xs ih =>
    cases i with
    | zero =>
      simp at hi
      subst hi
      exact weatherLoop_cons_onset U summary anchor c x xs hc he
    | succ k =>
      have hx : ¬ qualifies anchor x := hfirst 0 x (Nat.succ_pos k) (by simp)
      rw [weatherLoop_cons_skip U summary anchor c x xs (fun h => hx h.2)]
      refine ih k (by simpa using hi) ?_
      intro j y hj hy
      exact hfirst (j + 1) y (Nat.succ_lt_succ hj) (by simpa using hy)

theorem weather_cons (U : UnicodeTables) (record : DarkSky) (d0 : MinutelyData)
    (rest : List MinutelyData) (hdata : record.Minutely.Data = d0 :: rest) :
    weather U record = .ok (weatherLoop U record.Minutely.Summary (Unix d0.Time 0)
      record.Currently.PrecipProbability (d0 :: rest)) := by
  unfold weather
  rw [hdata]

/-- The anchor sample itself never qualifies. -/
theorem not_qualifies_anchor (d0 : MinutelyData) : ¬ qualifies d0.Time d0 :=
  fun h => h.2 rfl

/-! ## First crossing -/

/-- C1. For a non-empty series `d0 :: rest` and a current probability below the threshold, if the
sample `e` at index `i` has a probability above the threshold and a timestamp different from the
anchor's, and no sample of lower index has both, then `weather` returns the onset message built
from `e`: its title-cased type, then `" starting in "`, its lead time in minutes, and `" mins"`.
Later samples, whatever their probability, play no part. -/
theorem first_crossing (U : UnicodeTables) (record : DarkSky) (d0 : MinutelyData)
    (rest : List MinutelyData) (i : Nat) (e : MinutelyData)
    (hdata : record.Minutely.Data = d0 :: rest)
    (hcur : record.Currently.PrecipProbability < threshold)
    (hi : (d0 :: rest)[i]? = some e)
    (he : threshold < e.PrecipProbability ∧ e.Time ≠ d0.Time)
    (hfirst : ∀ (j : Nat) (x : MinutelyData), j < i → (d0 :: rest)[j]? = some x →
      ¬ (threshold < x.PrecipProbability ∧ x.Time ≠ d0.Time)) :
    weather U record = .ok (Title U e.PrecipType ++ " starting in " ++
      formatFloat (subtractTime (Unix e.Time 0) (Unix d0.Time 0)) ++ " mins") := by
  rw [weather_cons U record d0 rest hdata]
  exact congrArg Except.ok
    (weatherLoop_index U _ d0.Time _ hcur (d0 :: rest) i e hi he hfirst)

/-- The example of the specification: anchor sample at `t = 1000`, then probability 0.25 one
minute later and 0.9 two minutes later, current probability 0.1 (`roundF64` gives the float64
that the decimal is read as).  The sample one minute after the anchor is reported, not the later
one of higher probability. -/
theorem first_crossing_witness :
    weather asciiTables ⟨⟨roundF64 0.1⟩, ⟨"Clear",
      [sample 1000 0 "", sample 1060 0.25 "rain", sample 1120 (roundF64 0.9) "snow"]⟩⟩
      = .ok "Rain starting in 1 mins" :=
  (first_crossing asciiTables _ (sample 1000 0 "")
    [sample 1060 0.25 "rain", sample 1120 (roundF64 0.9) "snow"]
    1 (sample 1060 0.25 "rain") rfl (by decide!) rfl (by decide!)
    (by
      intro j x hj hx
      obtain rfl : j = 0 := by omega
      simp at hx
      subst hx
      decide!)).trans (by decide!)

/-- When the series consists of the two samples alone, the first of them is the anchor and is
passed over: the second one is reported, one minute ahead. -/
theorem first_sample_is_anchor_example :
    weather asciiTables ⟨⟨roundF64 0.1⟩, ⟨"Clear",
      [sample 1060 0.25 "rain", sample 1120 (roundF64 0.9) "snow"]⟩⟩
      = .ok "Snow starting in 1 mins" := by
  decide!

/-! ## Already raining -/

/-- C2. For a non-empty series, whatever its samples, a current probability at or above the
threshold (the threshold itself included) makes `weather` return the minutely summary. -/
theorem already_raining (U : UnicodeTables) (record : DarkSky) (d0 : MinutelyData)
    (rest : List MinutelyData)
    (hdata : record.Minutely.Data = d0 :: rest)
    (hcur : threshold ≤ record.Currently.PrecipProbability) :
    weather U record = .ok record.Minutely.Summary := by
  rw [weather_cons U record d0 rest hdata]
  have h := weatherLoop_append_skip U record.Minutely.Summary d0.Time
    record.Currently.PrecipProbability (d0 :: rest) []
    (fun x _ hx => absurd hx.1 (not_lt.mpr hcur))
  rw [List.append_nil] at h
  rw [h]
  rfl

/-- A current probability of exactly `0.2`, with samples at probability 0.75 ahead. -/
theorem already_raining_witness :
    weather asciiTables ⟨⟨threshold⟩, ⟨"Drizzle for the hour.",
      [sample 1000 0.75 "rain", sample 1060 0.75 "rain"]⟩⟩ = .ok "Drizzle for the hour." :=
  already_raining asciiTables _ (sample 1000 0.75 "rain") [sample 1060 0.75 "rain"] rfl
    (le_refl _)

/-! ## Empty series -/

/-- C3. On a record whose minutely series is empty, `weather` panics at `Data[0]`: it returns
neither the summary nor any other string. -/
theorem empty_series_panics (U : UnicodeTables) (current : ℚ) (summary : String) :
    weather U ⟨⟨current⟩, ⟨summary, []⟩⟩ = .error Panic.indexOutOfRange :=
  rfl

/-! ## Threshold boundary -/

/-- C4. In a series `pre ++ e :: suf` with anchor sample `d0`:
a sample `e` whose probability is exactly the threshold is passed over, the result being that of
the scan of the other samples; every onset message returned comes from a sample whose
probability is strictly above the threshold; and a sample `e` of probability `threshold + ε`,
`ε > 0`, with a timestamp different from the anchor's, current probability below the threshold
and no qualifying sample before it, is the one reported. -/
theorem threshold_strict (U : UnicodeTables) (record : DarkSky) (d0 : MinutelyData)
    (pre : List MinutelyData) (e : MinutelyData) (suf : List MinutelyData)
    (hdata : record.Minutely.Data = pre ++ e :: suf)
    (hanchor : (pre ++ e :: suf).head? = some d0) :
    (e.PrecipProbability = threshold →
      weather U record = .ok (weatherLoop U record.Minutely.Summary (Unix d0.Time 0)
        record.Currently.PrecipProbability (pre ++ suf))) ∧
    (∀ s, weather U record = .ok s → s = record.Minutely.Summary ∨
      ∃ x ∈ pre ++ e :: suf, threshold < x.PrecipProbability ∧ s = onsetMessage U d0.Time x) ∧
    (∀ ε : ℚ, 0 < ε → e.PrecipProbability = threshold + ε → e.Time ≠ d0.Time →
      record.Currently.PrecipProbability < threshold →
      (∀ x ∈ pre, ¬ (threshold < x.PrecipProbability ∧ x.Time ≠ d0.Time)) →
      weather U record = .ok (onsetMessage U d0.Time e)) := by
  obtain ⟨rest, hrest⟩ : ∃ rest, pre ++ e :: suf = d0 :: rest := by
    cases hl : pre ++ e :: suf with
    | nil => simp at hl
    | cons a l =>
      rw [hl] at hanchor
      simp at hanchor
      exact ⟨l, by rw [hanchor]⟩
  have hw := weather_cons U record d0 rest (hdata.trans hrest)
  rw [← hrest] at hw
  refine ⟨?_, ?_, ?_⟩
  · intro hp
    rw [hw, weatherLoop_remove U _ d0.Time _ pre suf e
      (fun h => absurd h.2.1 (by rw [hp]; exact lt_irrefl _))]
  · intro s hs
    rw [hw] at hs
    have hs' := Except.ok.inj hs
    rcases weatherLoop_cases U record.Minutely.Summary d0.Time
      record.Currently.PrecipProbability (pre ++ e :: suf) with h | ⟨x, hx, _, hq, h⟩
    · exact Or.inl (hs'.symm.trans h)
    · exact Or.inr ⟨x, hx, hq.1, hs'.symm.trans h⟩
  · intro ε hε hp hne hcur hpre
    rw [hw, weatherLoop_append_skip U _ d0.Time _ pre (e :: suf) (fun x hx h => hpre x hx h.2),
      weatherLoop_cons_onset U _ d0.Time _ e suf hcur ⟨by rw [hp]; linarith, hne⟩]

/-- A sample at exactly `0.2` one minute ahead is passed over, the later sample being reported;
the float64 next above `0.2` in its place is reported. -/
theorem threshold_strict_witness :
    weather asciiTables ⟨⟨0.125⟩, ⟨"Clear",
      [sample 1000 0 "", sample 1060 threshold "rain", sample 1120 0.75 "snow"]⟩⟩
      = .ok "Snow starting in 2 mins" ∧
    weather asciiTables ⟨⟨0.125⟩, ⟨"Clear",
      [sample 1000 0 "", sample 1060 (threshold + 1 / 2 ^ 55) "rain", sample 1120 0.75 "snow"]⟩⟩
      = .ok "Rain starting in 1 mins" :=
  ⟨((threshold_strict asciiTables _ (sample 1000 0 "") [sample 1000 0 ""]
      (sample 1060 threshold "rain") [sample 1120 0.75 "snow"] rfl rfl).1 rfl).trans (by decide!),
   ((threshold_strict asciiTables _ (sample 1000 0 "") [sample 1000 0 ""]
      (sample 1060 (threshold + 1 / 2 ^ 55) "rain") [sample 1120 0.75 "snow"] rfl rfl).2.2
      (1 / 2 ^ 55) (by norm_num) rfl (by decide) (by decide!)
      (by
        intro x hx
        simp at hx
        subst hx
        decide!)).trans (by decide!)⟩

/-! ## Anchor timestamp -/

/-- C5. In a non-empty series `d0 :: rest`: a sample `e`, at any index and of any probability,
whose timestamp is the first sample's is passed over, the result being that of the scan of the
other samples with the same anchor; every onset message returned comes from a sample after the
first whose timestamp differs from the first sample's; a one-sample series yields the summary. -/
theorem anchor_exclusion (U : UnicodeTables) (record : DarkSky) (d0 : MinutelyData)
    (rest : List MinutelyData) (hdata : record.Minutely.Data = d0 :: rest) :
    (∀ pre e suf, d0 :: rest = pre ++ e :: suf → e.Time = d0.Time →
      weather U record = .ok (weatherLoop U record.Minutely.Summary (Unix d0.Time 0)
        record.Currently.PrecipProbability (pre ++ suf))) ∧
    (∀ s, weather U record = .ok s → s = record.Minutely.Summary ∨
      ∃ e ∈ rest, e.Time ≠ d0.Time ∧ s = onsetMessage U d0.Time e) ∧
    (rest = [] → weather U record = .ok record.Minutely.Summary) := by
  have hw := weather_cons U record d0 rest hdata
  have hskip := weatherLoop_cons_skip U record.Minutely.Summary d0.Time
    record.Currently.PrecipProbability d0 rest (fun h => not_qualifies_anchor d0 h.2)
  refine ⟨?_, ?_, ?_⟩
  · intro pre e suf hsplit he
    rw [hw, hsplit, weatherLoop_remove U _ d0.Time _ pre suf e (fun h => h.2.2 he)]
  · intro s hs
    rw [hw, hskip] at hs
    have hs' := Except.ok.inj hs
    rcases weatherLoop_cases U record.Minutely.Summary d0.Time
      record.Currently.PrecipProbability rest with h | ⟨x, hx, _, hq, h⟩
    · exact Or.inl (hs'.symm.trans h)
    · exact Or.inr ⟨x, hx, hq.2, hs'.symm.trans h⟩
  · intro hnil
    rw [hw, hskip, hnil]
    rfl

/-- A sample at probability 0.75 carrying the anchor's timestamp, at index 1, is passed over and
the next one reported; a series of one sample at probability 0.75 yields the summary. -/
theorem anchor_exclusion_witness :
    weather asciiTables ⟨⟨0.125⟩, ⟨"Clear",
      [sample 1000 0.75 "rain", sample 1000 0.75 "sleet", sample 1120 0.5 "snow"]⟩⟩
      = .ok "Snow starting in 2 mins" ∧
    weather asciiTables ⟨⟨0.125⟩, ⟨"Clear", [sample 1000 0.75 "rain"]⟩⟩ = .ok "Clear" :=
  ⟨((anchor_exclusion asciiTables _ (sample 1000 0.75 "rain")
      [sample 1000 0.75 "sleet", sample 1120 0.5 "snow"] rfl).1
      [sample 1000 0.75 "rain"] (sample 1000 0.75 "sleet") [sample 1120 0.5 "snow"] rfl rfl).trans
      (by decide!),
   (anchor_exclusion asciiTables _ (sample 1000 0.75 "rain") [] rfl).2.2 rfl⟩

/-! ## No qualifying sample -/

/-- C7. For a non-empty series and any current probability, if no sample has both a probability
above the threshold and a timestamp different from the anchor's, `weather` returns the minutely
summary, unchanged. -/
theorem no_qualifying_sample (U : UnicodeTables) (record : DarkSky) (d0 : MinutelyData)
    (rest : List MinutelyData)
    (hdata : record.Minutely.Data = d0 :: rest)
    (hnone : ∀ x ∈ d0 :: rest, ¬ (threshold < x.PrecipProbability ∧ x.Time ≠ d0.Time)) :
    weather U record = .ok record.Minutely.Summary := by
  rw [weather_cons U record d0 rest hdata]
  have h := weatherLoop_append_skip U record.Minutely.Summary d0.Time
    record.Currently.PrecipProbability (d0 :: rest) [] (fun x hx h => hnone x hx h.2)
  rw [List.append_nil] at h
  rw [h]
  rfl

/-- All samples below the threshold, the last exactly at it. -/
theorem no_qualifying_sample_witness :
    weather asciiTables ⟨⟨0.125⟩, ⟨"Partly cloudy for the hour.",
      [sample 1000 0 "", sample 1060 0.125 "rain", sample 1120 threshold "rain"]⟩⟩
      = .ok "Partly cloudy for the hour." :=
  no_qualifying_sample asciiTables _ (sample 1000 0 "")
    [sample 1060 0.125 "rain", sample 1120 threshold "rain"] rfl
    (by
      intro x hx
      simp only [List.mem_cons, List.mem_singleton, List.not_mem_nil, or_false] at hx
      rcases hx with rfl | rfl | rfl <;> decide!)

/-! ## Type formatting -/

/-- C8, as the code has it. For the selected sample `e` (the sample of lowest index with a
probability above the threshold and a timestamp different from the anchor's, the current
probability being below the threshold) `weather` returns the title-cased type of `e` followed by
`" starting in "`, the lead time and `" mins"`; for the type `"rain"` that is
`"Rain starting in "` and what follows, and for the empty type nothing stands in for the type:
the message is `" starting in "` and what follows. -/
theorem type_formatting (U : UnicodeTables) (record : DarkSky) (d0 : MinutelyData)
    (rest : List MinutelyData) (i : Nat) (e : MinutelyData)
    (hdata : record.Minutely.Data = d0 :: rest)
    (hcur : record.Currently.PrecipProbability < threshold)
    (hi : (d0 :: rest)[i]? = some e)
    (he : threshold < e.PrecipProbability ∧ e.Time ≠ d0.Time)
    (hfirst : ∀ (j : Nat) (x : MinutelyData), j < i → (d0 :: rest)[j]? = some x →
      ¬ (threshold < x.PrecipProbability ∧ x.Time ≠ d0.Time)) :
    weather U record = .ok (Title U e.PrecipType ++ " starting in " ++
      formatFloat (subtractTime (Unix e.Time 0) (Unix d0.Time 0)) ++ " mins") ∧
    (e.PrecipType = "rain" → weather U record = .ok ("Rain starting in " ++
      formatFloat (subtractTime (Unix e.Time 0) (Unix d0.Time 0)) ++ " mins")) ∧
    (e.PrecipType = "" → weather U record = .ok (" starting in " ++
      formatFloat (subtractTime (Unix e.Time 0) (Unix d0.Time 0)) ++ " mins")) := by
  have hw : weather U record = .ok (onsetMessage U d0.Time e) := by
    rw [weather_cons U record d0 rest hdata]
    exact congrArg Except.ok
      (weatherLoop_index U _ d0.Time _ hcur (d0 :: rest) i e hi he hfirst)
  refine ⟨hw, ?_, ?_⟩
  · intro ht
    rw [hw, onsetMessage, ht]
    rfl
  · intro ht
    rw [hw, onsetMessage, ht]
    rfl

/-- A selected sample of type `"rain"`, one minute after the anchor. -/
theorem type_formatting_witness :
    weather asciiTables ⟨⟨0.125⟩, ⟨"Clear", [sample 1000 0 "", sample 1060 0.25 "rain"]⟩⟩
      = .ok "Rain starting in 1 mins" :=
  ((type_formatting asciiTables _ (sample 1000 0 "") [sample 1060 0.25 "rain"]
    1 (sample 1060 0.25 "rain") rfl (by decide!) rfl (by decide!)
    (by
      intro j x hj hx
      obtain rfl : j = 0 := by omega
      simp at hx
      subst hx
      decide!)).2.1 rfl).trans (by decide!)

/-- C8 fails as stated: a qualifying sample with an empty type gives a message that begins with
`" starting in"`, no label standing in for the type. -/
theorem empty_type_counterexample :
    weather asciiTables ⟨⟨0.125⟩, ⟨"Clear", [sample 1000 0 "", sample 1060 0.25 ""]⟩⟩
      = .ok " starting in 1 mins" := by
  decide!

/-! ## Lead time -/

/-- The seconds that `time.Unix` stores, for a timestamp up to 9223371974719179007. -/
theorem ext_of_le (a : int64) (h : (a : Int) ≤ 9223371974719179007) :
    wrap64 ((a : Int) + 62135596800) = (a : Int) + 62135596800 := by
  have ha := a.property
  unfold wrap64
  omega

/-- The seconds that `time.Unix` stores, for a timestamp above 9223371974719179007: the int64
sum has wrapped. -/
theorem ext_of_gt (a : int64) (h : 9223371974719179007 < (a : Int)) :
    wrap64 ((a : Int) + 62135596800) = (a : Int) + 62135596800 - 18446744073709551616 := by
  have ha := a.property
  unfold wrap64
  omega

/-- A sample later than the anchor has a positive lead time, unless `time.Unix` wraps between
the two. -/
theorem subtractTime_pos (a s : int64) (h : (a : Int) < s)
    (hside : (s : Int) ≤ 9223371974719179007 ∨ 9223371974719179007 < (a : Int)) :
    0 < subtractTime (Unix s 0) (Unix a 0) := by
  have hneg : (Unix a 0).Sub (Unix s 0) < 0 := by
    rw [Unix_zero, Unix_zero]
    refine (Sub_ext _ _ (wrap64_mem _) (wrap64_mem _)).1 ?_
    rcases hside with h1 | h1
    · rw [ext_of_le a (by omega), ext_of_le s h1]
      omega
    · rw [ext_of_gt a h1, ext_of_gt s (by omega)]
      omega
  have := Minutes_neg_of_neg _ hneg
  unfold subtractTime
  simp only
  linarith

theorem subtractTime_eq (a s : int64) (hrange : |(s : Int) - a| ≤ 9223372036)
    (hside : (a : Int) ≤ 9223371974719179007 ↔ (s : Int) ≤ 9223371974719179007) :
    subtractTime (Unix s 0) (Unix a 0) = Minutes (((s : Int) - a) * 1000000000) := by
  have h' := abs_le.mp hrange
  have hdiff : wrap64 ((a : Int) + 62135596800) - wrap64 ((s : Int) + 62135596800)
      = (a : Int) - s := by
    by_cases ha : (a : Int) ≤ 9223371974719179007
    · rw [ext_of_le a ha, ext_of_le s (hside.mp ha)]
      ring
    · have hs : ¬ ((s : Int) ≤ 9223371974719179007) := fun h => ha (hside.mpr h)
      rw [ext_of_gt a (by omega), ext_of_gt s (by omega)]
      ring
  have hsub : (Unix a 0).Sub (Unix s 0) = -(((s : Int) - a) * 1000000000) := by
    rw [Unix_zero, Unix_zero,
      (Sub_ext _ _ (wrap64_mem _) (wrap64_mem _)).2.2 (by rw [hdiff]; omega)
        (by rw [hdiff]; omega), hdiff]
    ring
  unfold subtractTime
  simp only
  rw [hsub, Minutes_neg, neg_neg]

theorem Minutes_seconds_of_nonneg (x : Int) (h0 : 0 ≤ x) (h : x ≤ 9223372036) :
    Minutes (x * 1000000000) =
      roundF64 (((x / 60 : Int) : ℚ) + roundF64 (((x % 60 : Int) : ℚ) / 60)) := by
  rw [Minutes_of_nonneg (x * 1000000000) (by omega) (by norm_num; omega)]
  have h1 : x * 1000000000 / 60000000000 = x / 60 := by omega
  have h2 : x * 1000000000 % 60000000000 = x % 60 * 1000000000 := by omega
  rw [h1, h2]
  have h3 : (((x % 60 * 1000000000 : Int) : ℚ)) / (60 * 1000000000) = ((x % 60 : Int) : ℚ) / 60 := by
    push_cast
    field_simp
    ring
  rw [h3]

/-- `Minutes` of a whole number `x` of seconds: the float64 sum of the whole minutes and of the
float64 quotient by 60 of the seconds left over. -/
theorem Minutes_seconds (x : Int) (h : |x| ≤ 9223372036) :
    Minutes (x * 1000000000) =
      roundF64 (((Int.tdiv x 60 : Int) : ℚ) + roundF64 (((Int.tmod x 60 : Int) : ℚ) / 60)) := by
  have h' := abs_le.mp h
  rcases le_or_lt 0 x with h0 | h0
  · rw [Int.tdiv_eq_ediv h0 (by norm_num), Int.tmod_eq_emod h0 (by norm_num)]
    exact Minutes_seconds_of_nonneg x h0 (by omega)
  · have hx : x = -(-x) := by ring
    have hn := Minutes_seconds_of_nonneg (-x) (by omega) (by omega)
    have e1 : x * 1000000000 = -((-x) * 1000000000) := by ring
    have e2 : Int.tdiv x 60 = -((-x) / 60) := by
      rw [← Int.tdiv_eq_ediv (by omega) (by norm_num), Int.neg_tdiv, neg_neg]
    have e3 : Int.tmod x 60 = -((-x) % 60) := by
      rw [← Int.tmod_eq_emod (by omega) (by norm_num), Int.tmod_def, Int.tmod_def, Int.neg_tdiv]
      ring
    rw [e1, Minutes_neg, hn, e2, e3]
    push_cast
    rw [neg_div, roundF64_neg, ← neg_add, roundF64_neg]

/-- C6, as the code has it. For an anchor timestamp `a` and a sample timestamp `s` at most
9223372036 seconds apart and either both up to 9223371974719179007 or both above it (so that
the wrap of `time.Unix` does not come between them and `Sub` does not saturate), the lead time
`subtractTime(time.Unix(s, 0), time.Unix(a, 0))` is `(s - a) / 60` up to float64 rounding: it is
the float64 sum of the whole minutes and of the float64 quotient by 60 of the remaining seconds;
it is exactly `(s - a) / 60` when `s - a` is a whole number of minutes; and in every case it
differs from `(s - a) / 60` by at most `|(s - a) / 60| / 2 ^ 51`. -/
theorem lead_time (a s : int64) (hrange : |(s : Int) - a| ≤ 9223372036)
    (hside : (a : Int) ≤ 9223371974719179007 ↔ (s : Int) ≤ 9223371974719179007) :
    subtractTime (Unix s 0) (Unix a 0) =
      roundF64 (((Int.tdiv ((s : Int) - a) 60 : Int) : ℚ) +
        roundF64 (((Int.tmod ((s : Int) - a) 60 : Int) : ℚ) / 60)) ∧
    ((60 : Int) ∣ (s : Int) - a →
      subtractTime (Unix s 0) (Unix a 0) = (((s : Int) - a : Int) : ℚ) / 60) ∧
    |subtractTime (Unix s 0) (Unix a 0) - (((s : Int) - a : Int) : ℚ) / 60|
      ≤ |(((s : Int) - a : Int) : ℚ) / 60| / (2 : ℚ) ^ (51 : Nat) := by
  have h' := abs_le.mp hrange
  have hd : |((s : Int) - a) * 1000000000| ≤ 2 ^ 63 := by
    rw [abs_le]
    norm_num
    constructor <;> omega
  have hq : ((((s : Int) - a) * 1000000000 : Int) : ℚ) / 60000000000
      = (((s : Int) - a : Int) : ℚ) / 60 := by
    push_cast
    field_simp
    ring
  rw [subtractTime_eq a s hrange hside]
  refine ⟨Minutes_seconds _ hrange, ?_, ?_⟩
  · intro hdvd
    have hdvd' : (60000000000 : Int) ∣ ((s : Int) - a) * 1000000000 := by
      obtain ⟨k, hk⟩ := hdvd
      exact ⟨k, by rw [hk]; ring⟩
    rw [Minutes_exact _ hd hdvd', hq]
  · have := Minutes_error _ hd
    rw [hq] at this
    exact this

/-- The example of the specification: anchor at `t = 1000`, sample at `t = 1180`, lead time
exactly `3`. -/
theorem lead_time_witness : subtractTime (Unix 1180 0) (Unix 1000 0) = 3 :=
  ((lead_time 1000 1180 (by decide!) (by decide!)).2.1 (by decide!)).trans (by decide!)

/-- Across 9223371974719179007 the seconds stored by `time.Unix` wrap and `Sub` saturates: a
sample 60 seconds after an anchor at that timestamp gets the lead time of the greatest
duration, negated. -/
theorem lead_time_wrap_example :
    (Unix 9223371974719179007 0).Sub (Unix 9223371974719179067 0) = maxDuration ∧
    formatFloat (subtractTime (Unix 9223371974719179067 0) (Unix 9223371974719179007 0))
      = "-1.5372286728091294e+08" := by
  decide!

/-- C6 fails as stated: for a sample 73 seconds after the anchor the lead time is the float64
`1.2166666666666668`, which is neither `73 / 60` nor the float64 nearest to `73 / 60`. -/
theorem lead_time_counterexample :
    subtractTime (Unix 1073 0) (Unix 1000 0) ≠ ((1073 - 1000 : Int) : ℚ) / 60 ∧
    subtractTime (Unix 1073 0) (Unix 1000 0) ≠ roundF64 (((1073 - 1000 : Int) : ℚ) / 60) ∧
    formatFloat (subtractTime (Unix 1073 0) (Unix 1000 0)) = "1.2166666666666668" := by
  decide!

/-! ## Sample order -/

/-- C9, as the code has it. There is no check of the order of the timestamps: on every non-empty
series, ordered or not, `weather` returns a string, never a failure; with a current probability
below the threshold it is the onset message of the sample of lowest index that has a probability
above the threshold and a timestamp different from the anchor's; with a current probability at
or above the threshold, or without such a sample, it is the summary. -/
theorem no_order_check (U : UnicodeTables) (record : DarkSky) (d0 : MinutelyData)
    (rest : List MinutelyData) (hdata : record.Minutely.Data = d0 :: rest) :
    (∃ s, weather U record = .ok s) ∧
    (∀ (i : Nat) (e : MinutelyData), record.Currently.PrecipProbability < threshold →
      (d0 :: rest)[i]? = some e →
      (threshold < e.PrecipProbability ∧ e.Time ≠ d0.Time) →
      (∀ (j : Nat) (x : MinutelyData), j < i → (d0 :: rest)[j]? = some x →
        ¬ (threshold < x.PrecipProbability ∧ x.Time ≠ d0.Time)) →
      weather U record = .ok (Title U e.PrecipType ++ " starting in " ++
        formatFloat (subtractTime (Unix e.Time 0) (Unix d0.Time 0)) ++ " mins")) ∧
    ((threshold ≤ record.Currently.PrecipProbability ∨
        ∀ x ∈ d0 :: rest, ¬ (threshold < x.PrecipProbability ∧ x.Time ≠ d0.Time)) →
      weather U record = .ok record.Minutely.Summary) := by
  have hw := weather_cons U record d0 rest hdata
  refine ⟨⟨_, hw⟩, ?_, ?_⟩
  · intro i e hcur hi he hfirst
    rw [hw]
    exact congrArg Except.ok
      (weatherLoop_index U _ d0.Time _ hcur (d0 :: rest) i e hi he hfirst)
  · intro h
    have hskip := weatherLoop_append_skip U record.Minutely.Summary d0.Time
      record.Currently.PrecipProbability (d0 :: rest) []
      (fun x hx hq => by
        rcases h with h | h
        · exact absurd hq.1 (not_lt.mpr h)
        · exact h x hx hq.2)
    rw [List.append_nil] at hskip
    rw [hw, hskip]
    rfl

/-- A series whose third sample is one minute before the first: the onset message comes back,
its lead time negative. -/
theorem no_order_check_witness :
    weather asciiTables ⟨⟨0.125⟩, ⟨"Clear",
      [sample 1000 0 "", sample 1060 0.125 "rain", sample 940 0.75 "sleet"]⟩⟩
      = .ok "Sleet starting in -1 mins" :=
  ((no_order_check asciiTables _ (sample 1000 0 "")
    [sample 1060 0.125 "rain", sample 940 0.75 "sleet"] rfl).2.1
    2 (sample 940 0.75 "sleet") (by decide!) rfl (by decide!)
    (by
      intro j x hj hx
      have hj' : j = 0 ∨ j = 1 := by omega
      rcases hj' with rfl | rfl
      · simp at hx
        subst hx
        decide!
      · simp at hx
        subst hx
        decide!)).trans (by decide!)

/-- C9 fails as stated: on a series whose timestamps decrease, `weather` does not fail; it
returns an onset message with a negative lead time. -/
theorem invalid_order_counterexample :
    weather asciiTables ⟨⟨0.125⟩, ⟨"Clear", [sample 1000 0 "", sample 940 0.75 "rain"]⟩⟩
      = .ok "Rain starting in -1 mins" := by
  decide!

/-! ## Positive lead time -/

/-- C10, as the code has it. For a non-empty series whose timestamps are non-decreasing and do
not straddle 9223371974719179007, the last timestamp for which the seconds stored by
`time.Unix` do not wrap (the samples after the first are all up to it, or the first is above
it), every string `weather` returns is the summary or the onset message of a sample whose lead
time is strictly positive. -/
theorem lead_positive (U : UnicodeTables) (record : DarkSky) (d0 : MinutelyData)
    (rest : List MinutelyData) (s : String)
    (hdata : record.Minutely.Data = d0 :: rest)
    (hsorted : List.Chain' (fun x y : MinutelyData => x.Time ≤ y.Time) (d0 :: rest))
    (hrange : (∀ x ∈ rest, (x.Time : Int) ≤ 9223371974719179007) ∨
      9223371974719179007 < (d0.Time : Int))
    (hs : weather U record = .ok s) :
    s = record.Minutely.Summary ∨
      ∃ e ∈ rest, 0 < subtractTime (Unix e.Time 0) (Unix d0.Time 0) ∧
        s = Title U e.PrecipType ++ " starting in " ++
          formatFloat (subtractTime (Unix e.Time 0) (Unix d0.Time 0)) ++ " mins" := by
  rw [weather_cons U record d0 rest hdata] at hs
  have hs' := Except.ok.inj hs
  have hskip := weatherLoop_cons_skip U record.Minutely.Summary d0.Time
    record.Currently.PrecipProbability d0 rest (fun h => not_qualifies_anchor d0 h.2)
  rw [hskip] at hs'
  haveI : IsTrans MinutelyData (fun x y : MinutelyData => x.Time ≤ y.Time) :=
    ⟨fun _ _ _ h1 h2 => le_trans h1 h2⟩
  have hpair : ∀ e ∈ rest, d0.Time ≤ e.Time := fun e he =>
    List.rel_of_pairwise_cons (List.chain_iff_pairwise.mp hsorted) he
  rcases weatherLoop_cases U record.Minutely.Summary d0.Time
    record.Currently.PrecipProbability rest with h | ⟨e, he, _, hq, h⟩
  · exact Or.inl (hs'.symm.trans h)
  · refine Or.inr ⟨e, he, ?_, hs'.symm.trans h⟩
    have hle : (d0.Time : Int) ≤ e.Time := hpair e he
    have hne : (d0.Time : Int) ≠ e.Time := fun heq => hq.2 (Subtype.ext heq.symm)
    refine subtractTime_pos d0.Time e.Time (lt_of_le_of_ne hle hne) ?_
    rcases hrange with hr | hr
    · exact Or.inl (hr e he)
    · exact Or.inr hr

/-- An ordered series with a qualifying sample two and a half minutes after the anchor. -/
theorem lead_positive_witness :
    "Rain starting in 2.5 mins" = "Clear" ∨
      ∃ e ∈ [sample 1060 0.125 "rain", sample 1150 0.75 "rain"],
        0 < subtractTime (Unix e.Time 0) (Unix (sample 1000 0 "").Time 0) ∧
        "Rain starting in 2.5 mins" = Title asciiTables e.PrecipType ++ " starting in " ++
          formatFloat (subtractTime (Unix e.Time 0) (Unix (sample 1000 0 "").Time 0)) ++ " mins" :=
  lead_positive asciiTables
    ⟨⟨0.125⟩, ⟨"Clear", [sample 1000 0 "", sample 1060 0.125 "rain", sample 1150 0.75 "rain"]⟩⟩
    (sample 1000 0 "") [sample 1060 0.125 "rain", sample 1150 0.75 "rain"]
    "Rain starting in 2.5 mins" rfl
    (by
      simp only [List.chain'_cons, List.chain'_singleton, and_true]
      decide!)
    (Or.inl (by
      intro x hx
      simp only [List.mem_cons, List.mem_singleton, List.not_mem_nil, or_false] at hx
      rcases hx with rfl | rfl <;> decide!))
    (by decide!)

/-- C10 fails as stated: the series of timestamps `0`, `9223372036854775807` is non-decreasing,
an onset is reported for its second sample, and the lead time is negative: the seconds that
`time.Unix` stores for the second timestamp have wrapped, and `Sub` returns the greatest
duration. -/
theorem lead_positive_counterexample :
    List.Chain' (fun x y : MinutelyData => x.Time ≤ y.Time)
      [sample 0 0 "", sample 9223372036854775807 0.75 "rain"] ∧
    weather asciiTables ⟨⟨0.125⟩, ⟨"Clear",
      [sample 0 0 "", sample 9223372036854775807 0.75 "rain"]⟩⟩
      = .ok "Rain starting in -1.5372286728091294e+08 mins" ∧
    subtractTime (Unix 9223372036854775807 0) (Unix 0 0) < 0 := by
  refine ⟨?_, by decide!, by decide!⟩
  simp only [List.chain'_cons, List.chain'_singleton, and_true]
  decide!

end RainAlert
